import Mathlib

set_option maxHeartbeats 1000000

/-!
Shallow embedding of the picasound dataflow engine (Rust) and proofs about it.

Conventions used throughout:
* `usize` arithmetic is modelled over `ℕ` with explicit `% 2^64` where
  wrap-around matters; saturating casts are modelled with `Int.toNat` / `min`.
* `f32` values are modelled over `ℚ`; every theorem that depends on floating
  point is either restricted to inputs where the `f32` computation is exact
  (small integers, halves, products/quotients without rounding) or notes the
  modelling assumption in its doc comment.  Rust's `f32::round` rounds half
  away from zero; for the non-negative values appearing here this agrees with
  Mathlib's `round` (half up).
* Fallible code (assertion failures, out-of-bounds slicing / indexing, HashMap
  index panics) is modelled with `Option` / a dedicated `panicked` outcome.
* Interior mutability (`Mutex`, atomics) is modelled by explicit state passing;
  concurrency itself is not modelled.
-/

namespace Picasound

/-- Modulus of `usize` on the 64-bit target. -/
def USIZE : ℕ := 2 ^ 64

/-- `usize::MAX`. -/
def usizeMax : ℕ := USIZE - 1

/-! ### src/util.rs — FrameId minting and LastFrameId -/

/-- src/util.rs `frame_id::get`: `FRAME_ID_COUNTER.fetch_add(1, Ordering::Relaxed)`
on an `AtomicUsize` initialised to 0.  Returns the previous counter value and the
new counter value (wrapping on overflow, as `fetch_add` does). -/
def frame_id.get (counter : ℕ) : ℕ × ℕ := (counter, (counter + 1) % USIZE)

/-- Counter value after `n` calls to `frame_id::get`, starting from the initial 0. -/
def frame_id.counterAfter (n : ℕ) : ℕ := (fun c => (frame_id.get c).2)^[n] 0

/-- The id returned by the `n`-th call (0-indexed) to `FrameId::new()`
(src/util.rs), which wraps `frame_id::get`. -/
def mintedId (n : ℕ) : ℕ := (frame_id.get (frame_id.counterAfter n)).1

/-- src/util.rs `LastFrameId::default`: `AtomicUsize::new(usize::MAX)` — the
"no frame computed yet" sentinel. -/
def LastFrameId.sentinel : ℕ := usizeMax

/-- src/util.rs `LastFrameId::store_if_not_eq`: returns `(true, id)` (caller must
recompute, id stored) when the stored id differs from the incoming one, and
`(false, last)` (cache hit) when they are equal. -/
def LastFrameId.store_if_not_eq (last id : ℕ) : Bool × ℕ :=
  if last ≠ id then (true, id) else (false, last)

/-! ### src/util/audio.rs — AudioBuffer -/

/-- src/util/audio.rs `BUFFER_FRAMES`. -/
def BUFFER_FRAMES : ℕ := 250

/-- src/util/audio.rs `AudioBuffer::push`.  The buffer content is the list of
stored samples (oldest first); `buf_size = frame_size * BUFFER_FRAMES` is the
bounded capacity.  The `assert!(data.len() <= self.buf_size)` failure is
modelled as `none`.  When the buffer would exceed twice the capacity, the code
shifts the newest `buf_size` samples to the front (`copy_within`) and truncates
(`resize`), i.e. keeps `buf.drop (buf.length - buf_size)`; the trigger condition
together with the accepted chunk size guarantees `buf_size < buf.length` there,
so `resize` only ever truncates. -/
def AudioBuffer.push (buf_size : ℕ) (buf data : List ℚ) : Option (List ℚ) :=
  if buf_size < data.length then none
  else
    let buf' := if 2 * buf_size < buf.length + data.length
      then buf.drop (buf.length - buf_size)
      else buf
    some (buf' ++ data)

/-- src/util/audio.rs `AudioBuffer::frames`: tail window of
`min(frame_size * frames, buf_size)` samples.  `saturating_sub` is exactly `ℕ`
subtraction, and the resulting head index is always `≤ buf.length`, so the Rust
slice `&buf[head..]` cannot fail. -/
def AudioBuffer.frames (frame_size buf_size : ℕ) (buf : List ℚ) (n : ℕ) : List ℚ :=
  buf.drop (buf.length - min (frame_size * n) buf_size)

/-- src/util/audio.rs `AudioBuffer::exact`: tail window of `min(n, buf_size)`
samples. -/
def AudioBuffer.exact (buf_size : ℕ) (buf : List ℚ) (n : ℕ) : List ℚ :=
  buf.drop (buf.length - min n buf_size)

/-- A sequence of `push` calls, failing if any single push is rejected. -/
def AudioBuffer.pushAll (buf_size : ℕ) (buf : List ℚ) : List (List ℚ) → Option (List ℚ)
  | [] => some buf
  | c :: rest =>
    match AudioBuffer.push buf_size buf c with
    | none => none
    | some b => AudioBuffer.pushAll buf_size b rest

/-! ### src/processors/average.rs — Average -/

/-- src/processors/average.rs `Average::provide_number`.  The node state is the
single `AtomicF32` average.  Note the source has no `LastFrameId` field: the
input is pulled and the average updated on every call, whatever the incoming
`FrameId` is.  `f32` arithmetic is modelled over `ℚ`; for the α ∈ {0, 1} cases
of claim C8 the `f32` computation is exact (multiplication by 0.0/1.0 and
addition of 0.0 are exact), so the model is faithful there.  Returns
(returned value, new stored average). -/
def Average.provide_number (alpha : ℚ) (input : ℕ → ℚ) (average : ℚ) (id : ℕ) : ℚ × ℚ :=
  let current := input id
  let next := alpha * current + (1 - alpha) * average
  (next, next)

/-- A sequence of pulls on an `Average` node, threading the stored average. -/
def Average.run (alpha : ℚ) (input : ℕ → ℚ) : ℚ → List ℕ → List ℚ
  | _, [] => []
  | avg, id :: ids =>
    let r := Average.provide_number alpha input avg id
    r.1 :: Average.run alpha input r.2 ids

/-- src/processors/average.rs `Average::new`: α is option "smoothing-factor"
with default 0.5 (the option tree is modelled as a string→ℚ association list). -/
def Average.newAlpha (opts : List (String × ℚ)) : ℚ :=
  (opts.lookup "smoothing-factor").getD (1 / 2)

/-- src/processors/average.rs `Average::new`: initial average is
`AtomicF32::default()`, i.e. 0.0. -/
def Average.initialAverage : ℚ := 0

/-! ### src/util/spectrum.rs — SpectrumStore, Spectrum, bin_for, freq -/

/-- src/util/spectrum.rs free function `bin_for`:
`(f * full_spectrum_size as f32 / sample_rate as f32).round() as usize`.
Modelled over ℚ; the `as usize` cast clamps negative values to 0 (`Int.toNat`)
and, for `sample_rate = 0`, the `f32` division yields +∞ whose cast saturates
to `usize::MAX`. -/
def spectrum.bin_for (full_spectrum_size : ℕ) (f : ℚ) (sample_rate : ℕ) : ℕ :=
  if sample_rate = 0 then usizeMax
  else (round (f * full_spectrum_size / sample_rate)).toNat

/-- src/util/spectrum.rs free function `freq`:
`bin as f32 * sample_rate as f32 / full_spectrum_size as f32`, over ℚ. -/
def spectrum.freq (full_spectrum_size bin : ℕ) (sample_rate : ℕ) : ℚ :=
  (bin : ℚ) * (sample_rate : ℚ) / (full_spectrum_size : ℚ)

/-- src/util/spectrum.rs `Spectrum`: sliced bin values, the offset `bin0` of the
slice inside the full transform, the original full transform length, and the
frequency range.  `none` as the upper bound models `f32::INFINITY` (the value
used when no frequency range is configured). -/
structure Spectrum (α : Type) where
  spectrum : List α
  bin0 : ℕ
  orig_len : ℕ
  frequency_range : ℚ × Option ℚ
deriving DecidableEq, Repr

/-- src/util/spectrum.rs `Spectrum::bin_for`: asserts the queried frequency lies
in the configured range (`none` models the assertion failure), then returns the
full-transform bin index with the slice offset subtracted. -/
def Spectrum.bin_for {α : Type} (s : Spectrum α) (f : ℚ) (sample_rate : ℕ) : Option ℕ :=
  let inRange := decide (s.frequency_range.1 ≤ f) &&
    (match s.frequency_range.2 with
     | none => true
     | some f_max => decide (f ≤ f_max))
  if inRange then some (spectrum.bin_for s.orig_len f sample_rate - s.bin0) else none

/-- src/util/spectrum.rs `Spectrum::freq`: absolute frequency of a slice-relative
bin index — the slice offset is added back before converting. -/
def Spectrum.freq {α : Type} (s : Spectrum α) (bin : ℕ) (sample_rate : ℕ) : ℚ :=
  spectrum.freq s.orig_len (s.bin0 + bin) sample_rate

/-- State of a `SpectrumStore` (src/util/spectrum.rs): the `LastFrameId`, the
inner `ComputeSpectrum`'s cached output, and an instrumentation counter of how
many times the underlying computation ran (the observable side effect that
claim C1 counts). -/
structure SpectrumStoreState (α : Type) where
  last_id : ℕ
  cached : List α
  count : ℕ
deriving DecidableEq, Repr

/-- A freshly constructed store: `LastFrameId::default()` is the sentinel, no
computations have run yet, `cached` is the inner processor's initial output
buffer. -/
def SpectrumStoreState.fresh {α : Type} (cached : List α) : SpectrumStoreState α :=
  ⟨LastFrameId.sentinel, cached, 0⟩

/-- The slicing half of src/util/spectrum.rs `SpectrumStore::compute`, applied
to the (possibly cached) inner output `out`: with a configured frequency range
the code returns `&out[bin_for(orig_len, f_min, sr)..bin_for(orig_len, f_max, sr)]`,
where `orig_len = out.length` is the length of the inner processor's output; a
Rust slice with bounds out of order or past the end panics, modelled as `none`.
Without a range the whole output is wrapped with offset 0 and range
`(0, +∞)`. -/
def SpectrumStore.sliceView {α : Type} (out : List α)
    (frequency_range : Option (ℚ × ℚ)) (sample_rate : ℕ) : Option (Spectrum α) :=
  let orig_len := out.length
  match frequency_range with
  | some (f_min, f_max) =>
    let b0 := spectrum.bin_for orig_len f_min sample_rate
    let b1 := spectrum.bin_for orig_len f_max sample_rate
    if b0 ≤ b1 ∧ b1 ≤ orig_len then
      some ⟨(out.drop b0).take (b1 - b0), b0, orig_len, (f_min, some f_max)⟩
    else none
  | none => some ⟨out, 0, orig_len, (0, none)⟩

/-- src/util/spectrum.rs `SpectrumStore::compute`.  `fn` abstracts the inner
`ComputeSpectrum::compute` (for `Stft`, the windowed normalized FFT);
`ComputeSpectrum::get` returns the cached output.  On `store_if_not_eq` the
store recomputes (caching the result, counting one observable computation) or
reuses the cache; the result is then sliced by the configured frequency range
(`SpectrumStore.sliceView`). -/
def SpectrumStore.compute {α : Type} (fn : List ℚ → List α)
    (frequency_range : Option (ℚ × ℚ)) (st : SpectrumStoreState α) (id : ℕ)
    (data : List ℚ) (sample_rate : ℕ) :
    Option (Spectrum α) × SpectrumStoreState α :=
  let r := LastFrameId.store_if_not_eq st.last_id id
  let st' : SpectrumStoreState α :=
    if r.1 then ⟨r.2, fn data, st.count + 1⟩ else ⟨r.2, st.cached, st.count⟩
  (SpectrumStore.sliceView st'.cached frequency_range sample_rate, st')

/-- Output length of realfft's real-to-complex forward transform for window
length `n`: `make_output_vec` returns `n/2 + 1` bins (library contract used by
`Stft` in src/util/spectrum.rs; `Stft::get` returns this output vector, so
`spectrum.len()` inside `SpectrumStore::compute` equals this, not the window
length). -/
def Stft.output_len (window_len : ℕ) : ℕ := window_len / 2 + 1

/-- Stated from the spec's words, for comparison with `SpectrumStore.compute`
(claim C6): the slice of the full transform from `round(f_min·N/sample_rate)`
inclusive to `round(f_max·N/sample_rate)` exclusive, where `N` is the WINDOW
length (sample count per transform) — as opposed to the code, which uses the
transform output length. -/
def claimedSlice {α : Type} (window_len : ℕ) (full : List α) (f_min f_max : ℚ)
    (sample_rate : ℕ) : List α :=
  (full.drop (spectrum.bin_for window_len f_min sample_rate)).take
    (spectrum.bin_for window_len f_max sample_rate -
      spectrum.bin_for window_len f_min sample_rate)

/-! ### src/processors/equalizer.rs — Equalizer -/

/-- src/processors/equalizer.rs `Equalizer::provide_video_frame`, bin width:
`(frame.width() as f32 / n_bins as f32).ceil() as usize`.  For `n_bins = 0` the
`f32` division yields +∞ (cast saturates to `usize::MAX`) or NaN when the width
is also 0 (cast gives 0).  Otherwise this is exact ceiling division: with
`width ≤ 7680` (VideoConfig bound) the `f32` quotient's rounding error is
smaller than its distance to the next lower integer, so the ceiling agrees with
the exact rational one. -/
def Equalizer.bin_width (width n_bins : ℕ) : ℕ :=
  if n_bins = 0 then (if width = 0 then 0 else usizeMax)
  else (width + n_bins - 1) / n_bins

/-- src/processors/equalizer.rs bar height for one bin:
`(amplitude * frame_height as f32).round() as usize`, then heights below 5 are
suppressed to 0 ("Ignore too-low bins").  `amplitude` is `spectrum[bin].norm()`,
a non-negative `f32`, modelled as a given non-negative rational. -/
def Equalizer.bin_height (amplitude : ℚ) (frame_height : ℕ) : ℕ :=
  let h := (round (amplitude * (frame_height : ℚ))).toNat
  if h < 5 then 0 else h

/-- One pixel of `Equalizer::provide_video_frame`: whether the closure sets the
pixel at column `x`, row `y` to white.  `none` models the panic of
`spectrum[bin]` when the computed bin index is out of bounds.  The guard is
`y >= frame_height - bin_height` in `usize` arithmetic: in release builds the
subtraction wraps modulo 2^64 when `bin_height > frame_height`, modelled with
`Int.emod`. -/
def Equalizer.pixel_lit (mags : List ℚ) (frame_height bw x y : ℕ) : Option Bool :=
  match mags[x / bw]? with
  | none => none
  | some amplitude =>
    let bh := Equalizer.bin_height amplitude frame_height
    let threshold := ((((frame_height : ℤ) - (bh : ℤ)) % (USIZE : ℤ))).toNat
    some (decide (threshold ≤ y))

/-- src/processors/equalizer.rs `Equalizer::provide_video_frame`: the spectrum's
bin magnitudes are `mags`; `VideoFrame::apply` visits every pixel row-major.
The result grid `g` has `g[y][x] = true` iff the call sets that pixel to white
grayscale (pixels not set keep the frame's previous contents).  `none` models a
panic on spectrum indexing. -/
def Equalizer.provide_video_frame (mags : List ℚ) (width frame_height : ℕ) :
    Option (List (List Bool)) :=
  let bw := Equalizer.bin_width width mags.length
  (List.range frame_height).mapM (fun y =>
    (List.range width).mapM (fun x => Equalizer.pixel_lit mags frame_height bw x y))

/-! ### src/load.rs — pipeline builder -/

/-- One named node definition from the declarative pipeline config
(src/load.rs `PipelineConfigNode` keyed by name): declared type, declared input
names.  Option blocks are irrelevant to the builder claims and omitted. -/
structure NodeDef where
  name : String
  node_type : String
  inputs : List String
deriving DecidableEq, Repr

/-- src/util.rs `InvalidPipeline`. -/
inductive InvalidPipelineKind where
  | SourceProcessorsSinkOrder
  | Cycle
  | UnknownInput
  | InvalidSyntax
deriving DecidableEq, Repr

/-- src/util.rs `Error` (the variants the builder can produce). -/
inductive Error where
  | System
  | InvalidInputs
  | InvalidOptions
  | UnknownNode (name : String)
  | InvalidPipeline (e : InvalidPipelineKind)
deriving DecidableEq, Repr

/-- Outcome of `PipelineConfig::pipeline`: the list of node names in
construction/registration order on success, an `Error`, or a panic (for the
`vertices[input]` HashMap index on an undeclared input name, and the
`unwrap`s). -/
inductive BuildOutcome where
  | ok (order : List String)
  | err (e : Error)
  | panicked
deriving DecidableEq, Repr

/-- The input graph's edge relation (src/load.rs builds one edge input→node for
every declared input): `EdgeTo defs a b` holds when some definition named `b`
declares `a` among its inputs. -/
def EdgeTo (defs : List NodeDef) (a b : String) : Prop :=
  ∃ d ∈ defs, d.name = b ∧ a ∈ d.inputs

/-- The declared input edges contain a (directed) cycle. -/
def HasCycle (defs : List NodeDef) : Prop :=
  ∃ a, Relation.TransGen (EdgeTo defs) a a

/-- A definition is ready to be emitted once all of its inputs are emitted. -/
def topoReady (done : List String) (d : NodeDef) : Bool :=
  d.inputs.all (done.contains ·)

/-- Model of petgraph's `toposort` as used in src/load.rs, by its documented
contract: returns some topological order of all vertices when the graph is
acyclic, and fails (petgraph: `Err(Cycle)`) when it contains a cycle.  Kahn
style: repeatedly emit a definition all of whose inputs are already emitted.
`fuel` bounds the number of rounds (`defs.length` suffices). -/
def toposort : ℕ → List NodeDef → List String → Option (List String)
  | _, [], done => some done
  | 0, _ :: _, _ => none
  | fuel + 1, rem@(_ :: _), done =>
    match rem.find? (topoReady done) with
    | none => none
    | some d => toposort fuel (rem.erase d) (done ++ [d.name])

/-- src/load.rs: `self.pipeline.remove(&node_name).unwrap()` lookup of a
definition by name. -/
def findDef (defs : List NodeDef) (n : String) : Option NodeDef :=
  defs.find? (fun d => d.name = n)

/-- The construction loop of src/load.rs `PipelineConfig::pipeline`: walk the
sorted order; for each node, resolve its input handles in the registry
(`registry.get(input)` yields `InvalidPipeline(UnknownInput)` when absent),
construct, and register the node.  The registry is modelled as the list of
registered names in registration order; node constructors themselves are
abstracted (their configuration errors are orthogonal to claims C2/C3). -/
def registerNodes (defs : List NodeDef) : List String → List String → BuildOutcome
  | [], registry => .ok registry
  | n :: rest, registry =>
    match findDef defs n with
    | none => .panicked
    | some d =>
      if d.inputs.all (registry.contains ·) then
        registerNodes defs rest (registry ++ [n])
      else .err (.InvalidPipeline .UnknownInput)

/-- src/load.rs `PipelineConfig::pipeline`.  The factory is a list of
(type name, is_sink) pairs.  Steps, in source order: resolve every declared
type (unknown type → `UnknownNode`), collect sink names; reject when no sink;
build the graph — `let u = vertices[input];` PANICS when an input name is not a
declared node name (the `UnknownInput` error of the later loop is unreachable
for such inputs); topologically sort (cycle → `InvalidPipeline(Cycle)`);
construct and register in sorted order. -/
def pipeline (factory : List (String × Bool)) (defs : List NodeDef) : BuildOutcome :=
  match defs.find? (fun d => (factory.lookup d.node_type).isNone) with
  | some d => .err (.UnknownNode d.node_type)
  | none =>
    let sinks := (defs.filter (fun d => (factory.lookup d.node_type).getD false)).map (·.name)
    if sinks.isEmpty then .err (.InvalidPipeline .SourceProcessorsSinkOrder)
    else
      let names := defs.map (·.name)
      if defs.all (fun d => d.inputs.all (names.contains ·)) then
        match toposort defs.length defs [] with
        | none => .err (.InvalidPipeline .Cycle)
        | some order => registerNodes defs order []
      else .panicked

/-! ## Helper lemmas -/

theorem Average.run_one (input : ℕ → ℚ) (avg : ℚ) (ids : List ℕ) :
    Average.run 1 input avg ids = ids.map input := by
  induction ids generalizing avg with
  | nil => rfl
  | cons i t ih => simp [Average.run, Average.provide_number, ih]

theorem Average.run_zero (input : ℕ → ℚ) (ids : List ℕ) :
    Average.run 0 input 0 ids = ids.map (fun _ => 0) := by
  induction ids with
  | nil => rfl
  | cons i t ih => simp [Average.run, Average.provide_number, ih]

theorem frame_id.counterAfter_eq (n : ℕ) : frame_id.counterAfter n = n % USIZE := by
  induction n with
  | zero =>
    simp [frame_id.counterAfter]
  | succ n ih =>
    have h1 : (1 : ℕ) % USIZE = 1 := by norm_num [USIZE]
    calc frame_id.counterAfter (n + 1)
        = (frame_id.counterAfter n + 1) % USIZE := by
          simp [frame_id.counterAfter, Function.iterate_succ_apply', frame_id.get]
      _ = (n % USIZE + 1 % USIZE) % USIZE := by rw [ih, h1]
      _ = (n + 1) % USIZE := (Nat.add_mod n 1 USIZE).symm

theorem mintedId_eq (n : ℕ) : mintedId n = n % USIZE := by
  simp [mintedId, frame_id.get, frame_id.counterAfter_eq]

theorem Equalizer.bin_width_mul_ge (width n_bins : ℕ) (hn : n_bins ≠ 0) (hw : 0 < width) :
    0 < Equalizer.bin_width width n_bins ∧
    width ≤ n_bins * Equalizer.bin_width width n_bins := by
  have hn' : 0 < n_bins := Nat.pos_of_ne_zero hn
  unfold Equalizer.bin_width
  simp only [hn, if_false]
  have hdm := Nat.div_add_mod (width + n_bins - 1) n_bins
  have hlt : (width + n_bins - 1) % n_bins < n_bins := Nat.mod_lt _ hn'
  set q := (width + n_bins - 1) / n_bins with hq
  set r := (width + n_bins - 1) % n_bins with hr
  constructor
  · rcases Nat.eq_zero_or_pos q with h | h
    · rw [h, Nat.mul_zero] at hdm
      omega
    · exact h
  · generalize hp : n_bins * q = p at hdm ⊢
    omega

theorem Equalizer.bin_index_lt (width n_bins x : ℕ) (hn : n_bins ≠ 0) (hx : x < width) :
    x / Equalizer.bin_width width n_bins < n_bins := by
  obtain ⟨hpos, hmul⟩ := Equalizer.bin_width_mul_ge width n_bins hn (Nat.pos_of_ne_zero (by omega))
  exact (Nat.div_lt_iff_lt_mul hpos).mpr (by omega)

theorem suffix_append_same {α : Type} {l₁ l₂ : List α} (h : l₁ <:+ l₂) (t : List α) :
    l₁ ++ t <:+ l₂ ++ t := by
  obtain ⟨s, rfl⟩ := h
  exact ⟨s, (List.append_assoc s l₁ t).symm⟩

theorem suffix_drop_tail {α : Type} {b s : List α} (B : ℕ) (h : b <:+ s)
    (hB : B ≤ b.length) : b.drop (b.length - B) = s.drop (s.length - B) := by
  obtain ⟨t, rfl⟩ := h
  have h1 : (t ++ b).length - B = t.length + (b.length - B) := by
    simp only [List.length_append]
    omega
  rw [h1, ← List.drop_drop, List.drop_left]

theorem AudioBuffer.push_none_iff (buf_size : ℕ) (buf data : List ℚ) :
    AudioBuffer.push buf_size buf data = none ↔ buf_size < data.length := by
  unfold AudioBuffer.push
  split <;> simp_all

theorem AudioBuffer.push_step (buf_size : ℕ) (buf data out : List ℚ)
    (h : AudioBuffer.push buf_size buf data = some out)
    (hlen : buf.length ≤ 2 * buf_size) :
    out.length ≤ 2 * buf_size ∧ out <:+ buf ++ data ∧
    min (buf.length + data.length) buf_size ≤ out.length := by
  unfold AudioBuffer.push at h
  split at h
  · exact absurd h (by simp)
  · rename_i hd
    push_neg at hd
    simp only [Option.some.injEq] at h
    subst h
    by_cases hc : 2 * buf_size < buf.length + data.length
    · simp only [hc, if_true]
      refine ⟨?_, suffix_append_same (List.drop_suffix _ _) data, ?_⟩ <;>
        simp only [List.length_append, List.length_drop] <;> omega
    · simp only [hc, if_false]
      exact ⟨by simp only [List.length_append]; omega, List.suffix_refl _,
        by simp only [List.length_append]; omega⟩

theorem AudioBuffer.pushAll_invariant (buf_size : ℕ) (chunks : List (List ℚ)) :
    ∀ (buf out : List ℚ),
      AudioBuffer.pushAll buf_size buf chunks = some out →
      buf.length ≤ 2 * buf_size →
      out.length ≤ 2 * buf_size ∧ out <:+ buf ++ chunks.flatten ∧
      min (buf.length + chunks.flatten.length) buf_size ≤ out.length := by
  induction chunks with
  | nil =>
    intro buf out h hb
    simp only [AudioBuffer.pushAll, Option.some.injEq] at h
    subst h
    refine ⟨hb, by simp, ?_⟩
    simp only [List.flatten_nil, List.length_nil]
    omega
  | cons c rest ih =>
    intro buf out h hb
    unfold AudioBuffer.pushAll at h
    cases hp : AudioBuffer.push buf_size buf c with
    | none => rw [hp] at h; exact absurd h (by simp)
    | some b =>
      rw [hp] at h
      obtain ⟨h1, h2, h3⟩ := AudioBuffer.push_step _ _ _ _ hp hb
      obtain ⟨g1, g2, g3⟩ := ih b out h h1
      refine ⟨g1, ?_, ?_⟩
      · have hmid : b ++ rest.flatten <:+ (buf ++ c) ++ rest.flatten :=
          suffix_append_same h2 rest.flatten
        have : out <:+ (buf ++ c) ++ rest.flatten := g2.trans hmid
        simpa [List.flatten_cons, List.append_assoc] using this
      · simp only [List.flatten_cons, List.length_append]
        omega

theorem AudioBuffer.pushAll_append (buf_size : ℕ) (l₁ l₂ : List (List ℚ))
    (buf : List ℚ) :
    AudioBuffer.pushAll buf_size buf (l₁ ++ l₂)
      = match AudioBuffer.pushAll buf_size buf l₁ with
        | none => none
        | some b => AudioBuffer.pushAll buf_size b l₂ := by
  induction l₁ generalizing buf with
  | nil => simp [AudioBuffer.pushAll]
  | cons c t ih =>
    simp only [List.cons_append, AudioBuffer.pushAll]
    cases AudioBuffer.push buf_size buf c with
    | none => rfl
    | some b => exact ih b

theorem SpectrumStore.compute_miss {α : Type} (fn : List ℚ → List α)
    (fr : Option (ℚ × ℚ)) (st : SpectrumStoreState α) (id : ℕ) (data : List ℚ)
    (sr : ℕ) (h : st.last_id ≠ id) :
    SpectrumStore.compute fn fr st id data sr
      = (SpectrumStore.sliceView (fn data) fr sr, ⟨id, fn data, st.count + 1⟩) := by
  simp [SpectrumStore.compute, LastFrameId.store_if_not_eq, h]

theorem SpectrumStore.compute_hit {α : Type} (fn : List ℚ → List α)
    (fr : Option (ℚ × ℚ)) (st : SpectrumStoreState α) (id : ℕ) (data : List ℚ)
    (sr : ℕ) (h : st.last_id = id) :
    SpectrumStore.compute fn fr st id data sr
      = (SpectrumStore.sliceView st.cached fr sr, ⟨id, st.cached, st.count⟩) := by
  simp [SpectrumStore.compute, LastFrameId.store_if_not_eq, h]

/-! ## Claim theorems -/

/-- Claim C8: the average node's stored average starts at 0
(`AtomicF32::default()`) and is updated on each pull by
`avg' = α·x + (1−α)·avg`, with α read from the "smoothing-factor" option and
defaulting to 0.5.  With α = 1 every `provide_number` call returns exactly the
raw input value; with α = 0 every call returns 0 regardless of the input
sequence. -/
theorem average_alpha_extremes (input : ℕ → ℚ) (ids : List ℕ) :
    Average.newAlpha [] = 1 / 2 ∧
    Average.initialAverage = 0 ∧
    Average.run 1 input Average.initialAverage ids = ids.map input ∧
    Average.run 0 input Average.initialAverage ids = ids.map (fun _ => 0) :=
  ⟨rfl, rfl, Average.run_one input _ ids, Average.run_zero input ids⟩

/-- Claim C10: `AudioBuffer::frames` and `AudioBuffer::exact` are total for
every requested size and buffer state: they return the most recent
`min(requested, buf_size, stored)` samples — a suffix of the stored buffer —
and when fewer samples are stored than requested the window silently shrinks
instead of erroring (the head index `saturating_sub` never exceeds the stored
length, so the slice cannot fail). -/
theorem audio_windows_total (frame_size buf_size n : ℕ) (buf : List ℚ) :
    AudioBuffer.frames frame_size buf_size buf n <:+ buf ∧
    (AudioBuffer.frames frame_size buf_size buf n).length
      = min (min (frame_size * n) buf_size) buf.length ∧
    AudioBuffer.exact buf_size buf n <:+ buf ∧
    (AudioBuffer.exact buf_size buf n).length = min (min n buf_size) buf.length := by
  refine ⟨List.drop_suffix _ _, ?_, List.drop_suffix _ _, ?_⟩ <;>
    simp [AudioBuffer.frames, AudioBuffer.exact] <;> omega

/-- Claim C5 counterexample: the generator's counter starts at 0 and
`fetch_add` returns the previous value, so the very first call to
`FrameId::new()` returns the all-zero id — the claim that the zero id is never
produced is false. -/
theorem frame_id_first_is_zero : mintedId 0 = 0 := rfl

/-- Claim C5 amended: the generator produces 0 on its first call (ids count up
from 0).  The "no frame computed yet" state is instead distinguished by
`LastFrameId::default()`, which is `usize::MAX` — distinct from every id minted
before the counter wraps around. -/
theorem frame_id_sentinel (n : ℕ) (h : n < USIZE - 1) :
    mintedId 0 = 0 ∧ LastFrameId.sentinel = USIZE - 1 ∧
    mintedId n = n % USIZE ∧ mintedId n ≠ LastFrameId.sentinel := by
  have hU : 1 < USIZE := by norm_num [USIZE]
  refine ⟨rfl, rfl, mintedId_eq n, ?_⟩
  rw [mintedId_eq, Nat.mod_eq_of_lt (by omega)]
  unfold LastFrameId.sentinel usizeMax
  omega

/-- Witness for `frame_id_sentinel` at `n = 3`. -/
theorem frame_id_sentinel_witness :
    (3 : ℕ) < USIZE - 1 ∧
    (mintedId 0 = 0 ∧ LastFrameId.sentinel = USIZE - 1 ∧
      mintedId 3 = 3 % USIZE ∧ mintedId 3 ≠ LastFrameId.sentinel) :=
  ⟨by norm_num [USIZE], frame_id_sentinel 3 (by norm_num [USIZE])⟩

/-- Claim C3 (code bug): a definition set in which node "a" declares the input
"missing" — not among the declared node names — makes the builder PANIC at the
`let u = vertices[input];` HashMap index while building the graph edges, before
toposort ever runs; it does not return `InvalidPipeline(UnknownInput)` (that
error path in the construction loop is unreachable for undeclared inputs,
because every input name was already used to index `vertices`). -/
theorem unknown_input_panics :
    pipeline [("rtsp", true)] [⟨"a", "rtsp", ["missing"]⟩] = .panicked ∧
    pipeline [("rtsp", true)] [⟨"a", "rtsp", ["missing"]⟩]
      ≠ .err (.InvalidPipeline .UnknownInput) := by decide

/-- Claim C9: in the equalizer's per-pixel rendering, for every non-empty
spectrum and every pixel column `x < width`, the bin index
`x / ((width as f32 / n_bins as f32).ceil() as usize)` is strictly below
`n_bins`, so `spectrum[bin]` is in bounds and the per-pixel closure never
panics. -/
theorem equalizer_bin_index_safe (mags : List ℚ) (width frame_height x y : ℕ)
    (hne : mags ≠ []) (hx : x < width) :
    x / Equalizer.bin_width width mags.length < mags.length ∧
    (Equalizer.pixel_lit mags frame_height
      (Equalizer.bin_width width mags.length) x y).isSome = true := by
  have hn : mags.length ≠ 0 := by simpa using hne
  have hlt := Equalizer.bin_index_lt width mags.length x hn hx
  refine ⟨hlt, ?_⟩
  have hm : mags[x / Equalizer.bin_width width mags.length]?
      = some mags[x / Equalizer.bin_width width mags.length] :=
    List.getElem?_eq_getElem hlt
  simp [Equalizer.pixel_lit, hm]

/-- Claim C4: `AudioBuffer::push` rejects every chunk longer than the bounded
capacity `frame_size * BUFFER_FRAMES`; after any sequence of accepted pushes
whose total length exceeds twice the capacity, a full-capacity window read
(`frames(BUFFER_FRAMES)`) returns exactly the capacity's worth of the most
recently pushed samples in push order, and the stored length never exceeds
twice the capacity (also at every intermediate state). -/
theorem audio_ring_buffer (frame_size buf_size : ℕ) (chunks : List (List ℚ))
    (final : List ℚ)
    (hbs : buf_size = frame_size * BUFFER_FRAMES)
    (hall : AudioBuffer.pushAll buf_size [] chunks = some final)
    (hbig : 2 * buf_size < chunks.flatten.length) :
    (∀ buf data, AudioBuffer.push buf_size buf data = none ↔ buf_size < data.length) ∧
    final.length ≤ 2 * buf_size ∧
    (∀ pre rest, chunks = pre ++ rest → ∀ b,
      AudioBuffer.pushAll buf_size [] pre = some b → b.length ≤ 2 * buf_size) ∧
    AudioBuffer.frames frame_size buf_size final BUFFER_FRAMES
      = chunks.flatten.drop (chunks.flatten.length - buf_size) ∧
    (AudioBuffer.frames frame_size buf_size final BUFFER_FRAMES).length = buf_size := by
  obtain ⟨h1, h2, h3⟩ := AudioBuffer.pushAll_invariant buf_size chunks [] final hall
    (by simp)
  simp only [List.nil_append, List.length_nil, Nat.zero_add] at h2 h3
  have hfin : buf_size ≤ final.length := by omega
  have hframes : AudioBuffer.frames frame_size buf_size final BUFFER_FRAMES
      = final.drop (final.length - buf_size) := by
    unfold AudioBuffer.frames
    rw [← hbs, Nat.min_self]
  constructor
  · exact fun buf data => AudioBuffer.push_none_iff buf_size buf data
  refine ⟨h1, ?_, ?_, ?_⟩
  · intro pre rest hsplit b hpre
    rw [hsplit, AudioBuffer.pushAll_append, hpre] at hall
    obtain ⟨g1, _, _⟩ := AudioBuffer.pushAll_invariant buf_size pre [] b hpre (by simp)
    exact g1
  · rw [hframes]
    exact suffix_drop_tail buf_size h2 hfin
  · rw [hframes]
    simp only [List.length_drop]
    omega

set_option maxRecDepth 40000 in
/-- Witness for `audio_ring_buffer`: capacity 250 (frame size 1), three
accepted pushes of 250 samples each (750 > 2·250). -/
theorem audio_ring_buffer_witness :
    ((250 : ℕ) = 1 * BUFFER_FRAMES) ∧
    (AudioBuffer.pushAll 250 []
      [List.replicate 250 (0 : ℚ), List.replicate 250 (0 : ℚ),
        List.replicate 250 (0 : ℚ)] = some (List.replicate 500 (0 : ℚ))) ∧
    (2 * 250 < ([List.replicate 250 (0 : ℚ), List.replicate 250 (0 : ℚ),
        List.replicate 250 (0 : ℚ)].flatten).length) ∧
    ((∀ buf data, AudioBuffer.push 250 buf data = none ↔ 250 < data.length) ∧
      (List.replicate 500 (0 : ℚ)).length ≤ 2 * 250 ∧
      (∀ pre rest,
        [List.replicate 250 (0 : ℚ), List.replicate 250 (0 : ℚ),
          List.replicate 250 (0 : ℚ)] = pre ++ rest → ∀ b,
        AudioBuffer.pushAll 250 [] pre = some b → b.length ≤ 2 * 250) ∧
      AudioBuffer.frames 1 250 (List.replicate 500 (0 : ℚ)) BUFFER_FRAMES
        = ([List.replicate 250 (0 : ℚ), List.replicate 250 (0 : ℚ),
            List.replicate 250 (0 : ℚ)].flatten).drop
          (([List.replicate 250 (0 : ℚ), List.replicate 250 (0 : ℚ),
            List.replicate 250 (0 : ℚ)].flatten).length - 250) ∧
      (AudioBuffer.frames 1 250 (List.replicate 500 (0 : ℚ)) BUFFER_FRAMES).length
        = 250) :=
  ⟨by norm_num [BUFFER_FRAMES], by decide, by decide,
    audio_ring_buffer 1 250 _ _ (by norm_num [BUFFER_FRAMES]) (by decide) (by decide)⟩

/-- Claim C1 counterexample: the average node does NOT memoize by FrameId — two
pulls carrying the same id (α = 0.5, constant input 1, starting average 0)
recompute both times and observe different results: 1/2, then 3/4. -/
theorem average_same_id_differs :
    (Average.provide_number (1/2) (fun _ => 1) Average.initialAverage 7).1 = 1/2 ∧
    (Average.provide_number (1/2) (fun _ => 1)
      (Average.provide_number (1/2) (fun _ => 1) Average.initialAverage 7).2 7).1
      = 3/4 ∧
    ((1 : ℚ)/2) ≠ 3/4 := by
  norm_num [Average.provide_number, Average.initialAverage]

/-- Claim C1 amended: `SpectrumStore::compute` memoizes per FrameId — after a
pull with a new id (one computation), a second pull with the same id performs
no further computation and returns the identical result (whatever data it is
handed), while a pull with a different id recomputes; `Average::provide_number`
by contrast has no id cache and recomputes `α·x + (1−α)·avg` on every pull. -/
theorem spectrum_store_memoization {α : Type} (fn : List ℚ → List α)
    (fr : Option (ℚ × ℚ)) (st : SpectrumStoreState α) (id id' : ℕ)
    (data data' : List ℚ) (sr : ℕ) (h : st.last_id ≠ id) :
    ((SpectrumStore.compute fn fr
        (SpectrumStore.compute fn fr st id data sr).2 id data' sr).1
      = (SpectrumStore.compute fn fr st id data sr).1) ∧
    ((SpectrumStore.compute fn fr
        (SpectrumStore.compute fn fr st id data sr).2 id data' sr).2
      = (SpectrumStore.compute fn fr st id data sr).2) ∧
    (SpectrumStore.compute fn fr st id data sr).2.count = st.count + 1 ∧
    (id' ≠ id →
      (SpectrumStore.compute fn fr
        (SpectrumStore.compute fn fr st id data sr).2 id' data' sr).2.count
        = st.count + 2) ∧
    (∀ alpha input avg j,
      (Average.provide_number alpha input avg j).1
        = alpha * input j + (1 - alpha) * avg) := by
  rw [SpectrumStore.compute_miss fn fr st id data sr h]
  have hhit := SpectrumStore.compute_hit fn fr
    (⟨id, fn data, st.count + 1⟩ : SpectrumStoreState α) id data' sr rfl
  rw [hhit]
  refine ⟨rfl, rfl, rfl, ?_, fun alpha input avg j => rfl⟩
  intro hne
  rw [SpectrumStore.compute_miss fn fr
    (⟨id, fn data, st.count + 1⟩ : SpectrumStoreState α) id' data' sr
    (by simpa using (Ne.symm hne))]

/-- Witness for `spectrum_store_memoization`: fresh store (sentinel last id),
no frequency range, ids 0 and 1. -/
theorem spectrum_store_memoization_witness :
    ((SpectrumStoreState.fresh ([] : List ℚ)).last_id ≠ 0) ∧ ((1 : ℕ) ≠ 0) ∧
    (((SpectrumStore.compute (fun _ => [(1 : ℚ), 2]) none
        (SpectrumStore.compute (fun _ => [(1 : ℚ), 2]) none
          (SpectrumStoreState.fresh []) 0 [5] 4).2 0 [9] 4).1
      = (SpectrumStore.compute (fun _ => [(1 : ℚ), 2]) none
          (SpectrumStoreState.fresh []) 0 [5] 4).1) ∧
    ((SpectrumStore.compute (fun _ => [(1 : ℚ), 2]) none
        (SpectrumStore.compute (fun _ => [(1 : ℚ), 2]) none
          (SpectrumStoreState.fresh []) 0 [5] 4).2 0 [9] 4).2
      = (SpectrumStore.compute (fun _ => [(1 : ℚ), 2]) none
          (SpectrumStoreState.fresh []) 0 [5] 4).2) ∧
    (SpectrumStore.compute (fun _ => [(1 : ℚ), 2]) none
        (SpectrumStoreState.fresh []) 0 [5] 4).2.count
      = (SpectrumStoreState.fresh ([] : List ℚ)).count + 1 ∧
    ((1 : ℕ) ≠ 0 →
      (SpectrumStore.compute (fun _ => [(1 : ℚ), 2]) none
        (SpectrumStore.compute (fun _ => [(1 : ℚ), 2]) none
          (SpectrumStoreState.fresh []) 0 [5] 4).2 1 [9] 4).2.count
        = (SpectrumStoreState.fresh ([] : List ℚ)).count + 2) ∧
    (∀ alpha input avg j,
      (Average.provide_number alpha input avg j).1
        = alpha * input j + (1 - alpha) * avg)) :=
  ⟨by decide, by decide,
    spectrum_store_memoization (fun _ => [(1 : ℚ), 2]) none
      (SpectrumStoreState.fresh []) 0 1 [5] [9] 4 (by decide)⟩

/-- Claim C6 counterexample: with window length 16 the full transform has
`Stft.output_len 16 = 9` bins; at sample rate 4 with range [1, 2] the code
slices bins `[round(1·9/4), round(2·9/4)) = [2, 5)` of the output — not the
claim's `[round(1·16/4), round(2·16/4)) = [4, 8)` computed from the window
length `N = 16`. -/
theorem spectrum_slice_uses_output_len :
    Stft.output_len 16 = 9 ∧
    ((SpectrumStore.compute (fun _ => ([0, 1, 2, 3, 4, 5, 6, 7, 8] : List ℚ))
        (some (1, 2)) (SpectrumStoreState.fresh []) 0 [] 4).1
      = some ⟨[2, 3, 4], 2, 9, (1, some 2)⟩) ∧
    claimedSlice 16 ([0, 1, 2, 3, 4, 5, 6, 7, 8] : List ℚ) 1 2 4 = [4, 5, 6, 7] ∧
    ([2, 3, 4] : List ℚ) ≠ [4, 5, 6, 7] := by
  have hb0 : spectrum.bin_for 9 1 4 = 2 := by
    norm_num [spectrum.bin_for, round_eq] <;> rfl
  have hb1 : spectrum.bin_for 9 2 4 = 5 := by
    norm_num [spectrum.bin_for, round_eq] <;> rfl
  have hc0 : spectrum.bin_for 16 1 4 = 4 := by
    norm_num [spectrum.bin_for, round_eq] <;> rfl
  have hc1 : spectrum.bin_for 16 2 4 = 8 := by
    norm_num [spectrum.bin_for, round_eq] <;> rfl
  refine ⟨rfl, ?_, ?_, by decide⟩
  · rw [SpectrumStore.compute_miss _ _ _ _ _ _ (by decide)]
    simp only [SpectrumStore.sliceView, List.length_cons, List.length_nil]
    norm_num [hb0, hb1]
  · unfold claimedSlice
    rw [hc0, hc1]
    decide

/-- Claim C6 amended: when a frequency range [f_min, f_max] is configured, the
Spectrum returned by a recomputing `compute` consists exactly of the full
transform's bins from `round(f_min·L/sample_rate)` inclusive to
`round(f_max·L/sample_rate)` exclusive, where `L` is the FULL TRANSFORM OUTPUT
length (for `Stft` with window length N this is `Stft.output_len N = N/2 + 1`,
not N itself); `Spectrum::bin_for` subtracts the slice offset (indices relative
to the sliced view) and `Spectrum::freq` adds it back (absolute
frequencies). -/
theorem spectrum_slice_amended {α : Type} (fn : List ℚ → List α)
    (st : SpectrumStoreState α) (id : ℕ) (data : List ℚ) (sr : ℕ)
    (f_min f_max : ℚ) (h : st.last_id ≠ id)
    (hb : spectrum.bin_for (fn data).length f_min sr
        ≤ spectrum.bin_for (fn data).length f_max sr)
    (hhi : spectrum.bin_for (fn data).length f_max sr ≤ (fn data).length) :
    ∃ s : Spectrum α,
      (SpectrumStore.compute fn (some (f_min, f_max)) st id data sr).1 = some s ∧
      s.orig_len = (fn data).length ∧
      s.bin0 = spectrum.bin_for (fn data).length f_min sr ∧
      s.spectrum = ((fn data).drop s.bin0).take
        (spectrum.bin_for (fn data).length f_max sr - s.bin0) ∧
      (∀ f, f_min ≤ f → f ≤ f_max →
        s.bin_for f sr = some (spectrum.bin_for (fn data).length f sr - s.bin0)) ∧
      (∀ b, s.freq b sr = spectrum.freq (fn data).length (s.bin0 + b) sr) := by
  rw [SpectrumStore.compute_miss fn _ st id data sr h]
  have hslice : SpectrumStore.sliceView (fn data) (some (f_min, f_max)) sr
      = some ⟨((fn data).drop (spectrum.bin_for (fn data).length f_min sr)).take
          (spectrum.bin_for (fn data).length f_max sr
            - spectrum.bin_for (fn data).length f_min sr),
          spectrum.bin_for (fn data).length f_min sr, (fn data).length,
          (f_min, some f_max)⟩ := by
    simp only [SpectrumStore.sliceView]
    rw [if_pos ⟨hb, hhi⟩]
  refine ⟨_, hslice, rfl, rfl, rfl, ?_, fun b => rfl⟩
  intro f hf1 hf2
  simp [Spectrum.bin_for, hf1, hf2]

/-- Witness for `spectrum_slice_amended`: transform output [0,1,2,3,4] (length
5), sample rate 4, range [1, 2]: bins [round(5/4), round(10/4)) = [1, 3). -/
theorem spectrum_slice_amended_witness :
    ((SpectrumStoreState.fresh ([] : List ℚ)).last_id ≠ 0) ∧
    (spectrum.bin_for ([0, 1, 2, 3, 4] : List ℚ).length 1 4
      ≤ spectrum.bin_for ([0, 1, 2, 3, 4] : List ℚ).length 2 4) ∧
    (spectrum.bin_for ([0, 1, 2, 3, 4] : List ℚ).length 2 4
      ≤ ([0, 1, 2, 3, 4] : List ℚ).length) ∧
    (∃ s : Spectrum ℚ,
      (SpectrumStore.compute (fun _ => ([0, 1, 2, 3, 4] : List ℚ)) (some (1, 2))
        (SpectrumStoreState.fresh []) 0 [] 4).1 = some s ∧
      s.orig_len = ([0, 1, 2, 3, 4] : List ℚ).length ∧
      s.bin0 = spectrum.bin_for ([0, 1, 2, 3, 4] : List ℚ).length 1 4 ∧
      s.spectrum = (([0, 1, 2, 3, 4] : List ℚ).drop s.bin0).take
        (spectrum.bin_for ([0, 1, 2, 3, 4] : List ℚ).length 2 4 - s.bin0) ∧
      (∀ f, (1 : ℚ) ≤ f → f ≤ 2 →
        s.bin_for f 4
          = some (spectrum.bin_for ([0, 1, 2, 3, 4] : List ℚ).length f 4 - s.bin0)) ∧
      (∀ b, s.freq b 4
        = spectrum.freq ([0, 1, 2, 3, 4] : List ℚ).length (s.bin0 + b) 4)) := by
  have hb1 : spectrum.bin_for 5 1 4 = 1 := by
    norm_num [spectrum.bin_for, round_eq] <;> rfl
  have hb2 : spectrum.bin_for 5 2 4 = 3 := by
    norm_num [spectrum.bin_for, round_eq] <;> rfl
  have hle1 : spectrum.bin_for ([0, 1, 2, 3, 4] : List ℚ).length 1 4
      ≤ spectrum.bin_for ([0, 1, 2, 3, 4] : List ℚ).length 2 4 := by
    show spectrum.bin_for 5 1 4 ≤ spectrum.bin_for 5 2 4
    rw [hb1, hb2]
    norm_num
  have hle2 : spectrum.bin_for ([0, 1, 2, 3, 4] : List ℚ).length 2 4
      ≤ ([0, 1, 2, 3, 4] : List ℚ).length := by
    show spectrum.bin_for 5 2 4 ≤ 5
    rw [hb2]
    norm_num
  exact ⟨by decide, hle1, hle2,
    spectrum_slice_amended (fun _ => ([0, 1, 2, 3, 4] : List ℚ))
      (SpectrumStoreState.fresh []) 0 [] 4 1 2 (by decide) hle1 hle2⟩

/-- Witness for `equalizer_bin_index_safe` on a concrete one-bin spectrum. -/
theorem equalizer_bin_index_safe_witness :
    ([(1 : ℚ)/2] ≠ []) ∧ ((1 : ℕ) < 2) ∧
    (1 / Equalizer.bin_width 2 [(1 : ℚ)/2].length < [(1 : ℚ)/2].length ∧
      (Equalizer.pixel_lit [(1 : ℚ)/2] 10
        (Equalizer.bin_width 2 [(1 : ℚ)/2].length) 1 0).isSome = true) :=
  ⟨by simp, by norm_num,
    equalizer_bin_index_safe [(1 : ℚ)/2] 2 10 1 0 (by simp) (by norm_num)⟩

theorem mapM_option_of_forall {α β : Type} (f : α → Option β) (g : α → β)
    (l : List α) (h : ∀ a ∈ l, f a = some (g a)) : l.mapM f = some (l.map g) := by
  induction l with
  | nil => rfl
  | cons x t ih =>
    rw [List.mapM_cons, h x (List.mem_cons_self x t),
      ih (fun a ha => h a (List.mem_cons_of_mem x ha))]
    rfl

theorem length_filter_range_ge (h k : ℕ) (hk : k ≤ h) :
    ((List.range h).filter (fun y => decide (k ≤ y))).length = h - k := by
  induction h with
  | zero => simp
  | succ n ih =>
    rw [List.range_succ, List.filter_append]
    simp only [List.length_append]
    by_cases hkn : k ≤ n
    · rw [ih hkn]
      simp only [List.filter, hkn, decide_eq_true_eq, decide_True]
      simp [hkn]
      omega
    · have hke : k = n + 1 := by omega
      subst hke
      have h1 : (List.range n).filter (fun y => decide (n + 1 ≤ y)) = [] := by
        apply List.filter_eq_nil_iff.mpr
        intro a ha
        simp only [decide_eq_true_eq]
        have := List.mem_range.mp ha
        omega
      rw [h1]
      simp

theorem map_range_getD {β : Type} (f : ℕ → β) (n y : ℕ) (d : β) (hy : y < n) :
    ((List.range n).map f).getD y d = f y := by
  rw [List.getD_eq_getElem?_getD, List.getElem?_map, List.getElem?_range hy]
  rfl

theorem Equalizer.bin_height_le (m : ℚ) (frame_height : ℕ)
    (hfit : (round (m * (frame_height : ℚ))).toNat ≤ frame_height) :
    Equalizer.bin_height m frame_height ≤ frame_height := by
  simp only [Equalizer.bin_height]
  split <;> omega

theorem Equalizer.pixel_lit_eq (mags : List ℚ) (frame_height bw x y : ℕ)
    (m : ℚ) (hm : mags[x / bw]? = some m)
    (hbh : Equalizer.bin_height m frame_height ≤ frame_height)
    (hfh : frame_height < USIZE) :
    Equalizer.pixel_lit mags frame_height bw x y
      = some (decide (frame_height - Equalizer.bin_height m frame_height ≤ y)) := by
  have hU : (USIZE : ℕ) = 18446744073709551616 := by norm_num [USIZE]
  have ht : ((((frame_height : ℤ)
        - (Equalizer.bin_height m frame_height : ℤ)) % (USIZE : ℤ))).toNat
      = frame_height - Equalizer.bin_height m frame_height := by
    rw [Int.emod_eq_of_lt (by omega) (by omega)]
    omega
  unfold Equalizer.pixel_lit
  rw [hm]
  dsimp only
  rw [ht]

/-- Claim C7: the equalizer divides the frame width into `n_bins` ceil-rounded
columns; each bar's height is `round(magnitude · frame_height)`, suppressed to
0 when the computed height is below 5 pixels (so height 4 renders nothing and
height 5 renders a bar exactly 5 pixels tall); bar pixels are the bottom rows
`y ≥ frame_height - height`, set to white grayscale.  Stated for magnitudes
whose computed height fits the frame (`≤ frame_height`, the claim's intended
domain — larger magnitudes fall out of the claim's description). -/
theorem equalizer_bars (mags : List ℚ) (width frame_height : ℕ)
    (hne : mags ≠ []) (hfh : frame_height < USIZE)
    (hfit : ∀ m ∈ mags, (round (m * (frame_height : ℚ))).toNat ≤ frame_height) :
    ∃ g : List (List Bool),
      Equalizer.provide_video_frame mags width frame_height = some g ∧
      g.length = frame_height ∧
      (∀ y < frame_height, ∀ x < width,
        (g.getD y []).getD x false
          = decide (frame_height - Equalizer.bin_height
              (mags.getD (x / Equalizer.bin_width width mags.length) 0)
              frame_height ≤ y)) ∧
      (∀ x < width, ((List.range frame_height).filter
          (fun y => (g.getD y []).getD x false)).length
        = Equalizer.bin_height
            (mags.getD (x / Equalizer.bin_width width mags.length) 0)
            frame_height) ∧
      (∀ m, (round (m * (frame_height : ℚ))).toNat = 4 →
        Equalizer.bin_height m frame_height = 0) ∧
      (∀ m, (round (m * (frame_height : ℚ))).toNat = 5 →
        Equalizer.bin_height m frame_height = 5) := by
  have hn : mags.length ≠ 0 := by simpa using hne
  set bw := Equalizer.bin_width width mags.length with hbw
  have hpix : ∀ y x, x < width →
      Equalizer.pixel_lit mags frame_height bw x y
        = some (decide (frame_height
            - Equalizer.bin_height (mags.getD (x / bw) 0) frame_height ≤ y)) := by
    intro y x hx
    have hidx : x / bw < mags.length := Equalizer.bin_index_lt width mags.length x hn hx
    have hm : mags[x / bw]? = some mags[x / bw] := List.getElem?_eq_getElem hidx
    have hgd : mags.getD (x / bw) 0 = mags[x / bw] := by
      simp [List.getD, hm]
    rw [hgd]
    exact Equalizer.pixel_lit_eq mags frame_height bw x y _ hm
      (Equalizer.bin_height_le _ _ (hfit _ (List.getElem_mem hidx))) hfh
  have hrow : ∀ y, (List.range width).mapM
        (fun x => Equalizer.pixel_lit mags frame_height bw x y)
      = some ((List.range width).map (fun x =>
          decide (frame_height
            - Equalizer.bin_height (mags.getD (x / bw) 0) frame_height ≤ y))) := by
    intro y
    apply mapM_option_of_forall
    intro x hx
    exact hpix y x (List.mem_range.mp hx)
  have hgrid : Equalizer.provide_video_frame mags width frame_height
      = some ((List.range frame_height).map (fun y => (List.range width).map (fun x =>
          decide (frame_height
            - Equalizer.bin_height (mags.getD (x / bw) 0) frame_height ≤ y)))) := by
    unfold Equalizer.provide_video_frame
    rw [← hbw]
    exact mapM_option_of_forall _ _ _ (fun y _ => hrow y)
  have hcell : ∀ y < frame_height, ∀ x < width,
      ((((List.range frame_height).map (fun y => (List.range width).map (fun x =>
          decide (frame_height
            - Equalizer.bin_height (mags.getD (x / bw) 0) frame_height ≤ y)))).getD
          y []).getD x false)
        = decide (frame_height
            - Equalizer.bin_height (mags.getD (x / bw) 0) frame_height ≤ y) := by
    intro y hy x hx
    rw [map_range_getD _ _ _ _ hy, map_range_getD _ _ _ _ hx]
  refine ⟨_, hgrid, by simp, hcell, ?_, ?_, ?_⟩
  · intro x hx
    have hidx : x / bw < mags.length := Equalizer.bin_index_lt width mags.length x hn hx
    have hm : mags[x / bw]? = some mags[x / bw] := List.getElem?_eq_getElem hidx
    have hgd : mags.getD (x / bw) 0 = mags[x / bw] := by simp [List.getD, hm]
    have hb := Equalizer.bin_height_le (mags.getD (x / bw) 0) frame_height
      (hfit _ (by rw [hgd]; exact List.getElem_mem hidx))
    have hfe : ∀ y ∈ List.range frame_height,
        ((((List.range frame_height).map (fun y => (List.range width).map (fun x =>
            decide (frame_height
              - Equalizer.bin_height (mags.getD (x / bw) 0) frame_height ≤ y)))).getD
            y []).getD x false)
          = decide (frame_height
              - Equalizer.bin_height (mags.getD (x / bw) 0) frame_height ≤ y) :=
      fun y hy => hcell y (List.mem_range.mp hy) x hx
    rw [List.filter_congr hfe]
    rw [length_filter_range_ge frame_height _ (Nat.sub_le _ _)]
    omega
  · intro m hm4
    simp only [Equalizer.bin_height]
    rw [hm4]
    simp
  · intro m hm5
    simp only [Equalizer.bin_height]
    rw [hm5]
    simp

set_option maxRecDepth 4000 in
/-- Witness for `equalizer_bars`: one bin of magnitude 1/2 on a 2×10 frame —
bar height round(1/2·10) = 5, lit rows 5..9 in both columns. -/
theorem equalizer_bars_witness :
    ([(1 : ℚ)/2] ≠ []) ∧ ((10 : ℕ) < USIZE) ∧
    (∀ m ∈ [(1 : ℚ)/2], (round (m * (10 : ℚ))).toNat ≤ 10) ∧
    (∃ g : List (List Bool),
      Equalizer.provide_video_frame [(1 : ℚ)/2] 2 10 = some g ∧
      g.length = 10 ∧
      (∀ y < 10, ∀ x < 2,
        (g.getD y []).getD x false
          = decide (10 - Equalizer.bin_height
              ([(1 : ℚ)/2].getD (x / Equalizer.bin_width 2 [(1 : ℚ)/2].length) 0)
              10 ≤ y)) ∧
      (∀ x < 2, ((List.range 10).filter
          (fun y => (g.getD y []).getD x false)).length
        = Equalizer.bin_height
            ([(1 : ℚ)/2].getD (x / Equalizer.bin_width 2 [(1 : ℚ)/2].length) 0) 10) ∧
      (∀ m, (round (m * (10 : ℚ))).toNat = 4 → Equalizer.bin_height m 10 = 0) ∧
      (∀ m, (round (m * (10 : ℚ))).toNat = 5 → Equalizer.bin_height m 10 = 5)) :=
  ⟨by simp, by norm_num [USIZE],
    by
      intro m hm
      rw [List.mem_singleton] at hm
      subst hm
      norm_num [round_eq],
    equalizer_bars [(1 : ℚ)/2] 2 10 (by simp) (by norm_num [USIZE])
      (by
        intro m hm
        rw [List.mem_singleton] at hm
        subst hm
        norm_num [round_eq])⟩

theorem rank_acyclic (defs : List NodeDef) (r : String → ℕ)
    (h : ∀ a b, EdgeTo defs a b → r a < r b) : ¬ HasCycle defs := by
  rintro ⟨a, hcyc⟩
  have key : ∀ x y, Relation.TransGen (EdgeTo defs) x y → r x < r y := by
    intro x y hxy
    induction hxy with
    | single e => exact h _ _ e
    | tail _ e ih => exact ih.trans (h _ _ e)
  exact absurd (key a a hcyc) (lt_irrefl _)

theorem cycle_of_all_have_pred (defs : List NodeDef) (S : List String) (hne : S ≠ [])
    (H : ∀ b ∈ S, ∃ a ∈ S, EdgeTo defs a b) : HasCycle defs := by
  classical
  obtain ⟨b₀, hb₀⟩ := List.exists_mem_of_ne_nil S hne
  set f : String → String := fun b =>
    if h : b ∈ S then (H b h).choose else b with hfdef
  have hf : ∀ b ∈ S, f b ∈ S ∧ EdgeTo defs (f b) b := by
    intro b hb
    rw [hfdef]
    simp only [dif_pos hb]
    exact (H b hb).choose_spec
  have hiter : ∀ n, f^[n] b₀ ∈ S := by
    intro n
    induction n with
    | zero => simpa using hb₀
    | succ n ih =>
      rw [Function.iterate_succ_apply']
      exact (hf _ ih).1
  have hstep : ∀ i, Relation.TransGen (EdgeTo defs) (f^[i + 1] b₀) (f^[i] b₀) := by
    intro i
    rw [Function.iterate_succ_apply']
    exact Relation.TransGen.single (hf _ (hiter i)).2
  have hpath : ∀ k i, Relation.TransGen (EdgeTo defs) (f^[i + k + 1] b₀) (f^[i] b₀) := by
    intro k
    induction k with
    | zero => exact fun i => hstep i
    | succ k ih =>
      intro i
      have h1 := ih (i + 1)
      have heq : i + (k + 1) + 1 = (i + 1) + k + 1 := by omega
      rw [heq]
      exact h1.trans (hstep i)
  have hmaps : ∀ n ∈ Finset.range (S.toFinset.card + 1),
      f^[n] b₀ ∈ S.toFinset :=
    fun n _ => List.mem_toFinset.mpr (hiter n)
  obtain ⟨m, hm, n, hn, hmn, heq⟩ :=
    Finset.exists_ne_map_eq_of_card_lt_of_maps_to (by simp) hmaps
  rcases Nat.lt_or_ge m n with hlt | hge
  · refine ⟨f^[m] b₀, ?_⟩
    have hp := hpath (n - m - 1) m
    rw [show m + (n - m - 1) + 1 = n from by omega] at hp
    rwa [← heq] at hp
  · have hlt' : n < m := by omega
    refine ⟨f^[n] b₀, ?_⟩
    have hp := hpath (m - n - 1) n
    rw [show n + (m - n - 1) + 1 = m from by omega] at hp
    rwa [heq] at hp

theorem name_inj (defs : List NodeDef) (hnodup : (defs.map NodeDef.name).Nodup)
    {d d' : NodeDef} (hd : d ∈ defs) (hd' : d' ∈ defs) (h : d.name = d'.name) :
    d = d' :=
  List.inj_on_of_nodup_map hnodup hd hd' h

theorem toposort_sound (defs : List NodeDef)
    (hnodup : (defs.map NodeDef.name).Nodup) :
    ∀ (fuel : ℕ) (rem : List NodeDef) (done order : List String),
      toposort fuel rem done = some order →
      rem ⊆ defs →
      (done ++ rem.map NodeDef.name).Perm (defs.map NodeDef.name) →
      (∀ d ∈ defs, d.name ∈ done → (∀ i ∈ d.inputs, i ∈ done) ∧ d.name ∉ d.inputs) →
      List.Pairwise (fun a b => ∀ d ∈ defs, d.name = a → b ∉ d.inputs) done →
      order.Perm (defs.map NodeDef.name) ∧
      (∀ d ∈ defs, d.name ∈ order → (∀ i ∈ d.inputs, i ∈ order) ∧ d.name ∉ d.inputs) ∧
      List.Pairwise (fun a b => ∀ d ∈ defs, d.name = a → b ∉ d.inputs) order := by
  intro fuel
  induction fuel with
  | zero =>
    intro rem done order h hsub hperm hinv2 hpw
    cases rem with
    | nil =>
      simp only [toposort, Option.some.injEq] at h
      subst h
      exact ⟨by simpa using hperm, hinv2, hpw⟩
    | cons x xs => simp [toposort] at h
  | succ fuel ih =>
    intro rem done order h hsub hperm hinv2 hpw
    cases rem with
    | nil =>
      simp only [toposort, Option.some.injEq] at h
      subst h
      exact ⟨by simpa using hperm, hinv2, hpw⟩
    | cons x xs =>
      rw [toposort] at h
      cases hfind : (x :: xs).find? (topoReady done) with
      | none => rw [hfind] at h; simp at h
      | some d =>
        rw [hfind] at h
        dsimp only at h
        have hdmem : d ∈ x :: xs := List.mem_of_find?_eq_some hfind
        have hready : topoReady done d = true := List.find?_some hfind
        have hready' : ∀ i ∈ d.inputs, i ∈ done := by
          intro i hi
          have hc := List.all_eq_true.mp hready i hi
          simpa [List.elem_iff] using hc
        have hnd : (done ++ (x :: xs).map NodeDef.name).Nodup :=
          (hperm.nodup_iff).mpr hnodup
        have hnotdone : d.name ∉ done := by
          rcases List.nodup_append.mp hnd with ⟨_, _, hdisj⟩
          intro hc
          exact hdisj hc (List.mem_map_of_mem NodeDef.name hdmem)
        have hpermrem : ((x :: xs).map NodeDef.name).Perm
            (d.name :: ((x :: xs).erase d).map NodeDef.name) :=
          (List.perm_cons_erase hdmem).map NodeDef.name
        have hperm' : ((done ++ [d.name]) ++ ((x :: xs).erase d).map NodeDef.name).Perm
            (defs.map NodeDef.name) := by
          have e1 : (done ++ [d.name]) ++ ((x :: xs).erase d).map NodeDef.name
              = done ++ (d.name :: ((x :: xs).erase d).map NodeDef.name) := by simp
          have p1 : (done ++ (d.name :: ((x :: xs).erase d).map NodeDef.name)).Perm
              (done ++ (x :: xs).map NodeDef.name) :=
            List.Perm.append_left done hpermrem.symm
          rw [e1]
          exact p1.trans hperm
        have hdmemdefs : d ∈ defs := hsub hdmem
        have hinv2' : ∀ d' ∈ defs, d'.name ∈ done ++ [d.name] →
            (∀ i ∈ d'.inputs, i ∈ done ++ [d.name]) ∧ d'.name ∉ d'.inputs := by
          intro d' hd' hmem
          rcases List.mem_append.mp hmem with hmem | hmem
          · obtain ⟨hin, hself⟩ := hinv2 d' hd' hmem
            exact ⟨fun i hi => List.mem_append_left _ (hin i hi), hself⟩
          · have hname : d'.name = d.name := by simpa using hmem
            have hde : d' = d := name_inj defs hnodup hd' hdmemdefs hname
            subst hde
            refine ⟨fun i hi => List.mem_append_left _ (hready' i hi), ?_⟩
            intro hc
            exact hnotdone (hready' _ hc)
        have hpw' : List.Pairwise (fun a b => ∀ d' ∈ defs, d'.name = a → b ∉ d'.inputs)
            (done ++ [d.name]) := by
          rw [List.pairwise_append]
          refine ⟨hpw, List.pairwise_singleton _ _, ?_⟩
          intro a ha b hb d' hd' hname
          have hb' : b = d.name := by simpa using hb
          subst hb'
          have hin := (hinv2 d' hd' (by rw [hname]; exact ha)).1
          intro hc
          exact hnotdone (hin _ hc)
        exact ih ((x :: xs).erase d) (done ++ [d.name]) order h
          (fun e he => hsub (List.erase_subset _ _ he)) hperm' hinv2' hpw'

theorem toposort_complete (defs : List NodeDef)
    (hinputs : ∀ d ∈ defs, ∀ i ∈ d.inputs, i ∈ defs.map NodeDef.name)
    (hacyc : ¬ HasCycle defs) :
    ∀ (fuel : ℕ) (rem : List NodeDef) (done : List String),
      rem.length ≤ fuel →
      rem ⊆ defs →
      (done ++ rem.map NodeDef.name).Perm (defs.map NodeDef.name) →
      (toposort fuel rem done).isSome := by
  intro fuel
  induction fuel with
  | zero =>
    intro rem done hlen _ _
    cases rem with
    | nil => simp [toposort]
    | cons x xs => simp at hlen
  | succ fuel ih =>
    intro rem done hlen hsub hperm
    cases rem with
    | nil => simp [toposort]
    | cons x xs =>
      cases hfind : (x :: xs).find? (topoReady done) with
      | some d =>
        rw [toposort, hfind]
        dsimp only
        have hdmem : d ∈ x :: xs := List.mem_of_find?_eq_some hfind
        have hpermrem : ((x :: xs).map NodeDef.name).Perm
            (d.name :: ((x :: xs).erase d).map NodeDef.name) :=
          (List.perm_cons_erase hdmem).map NodeDef.name
        have hperm' : ((done ++ [d.name]) ++ ((x :: xs).erase d).map NodeDef.name).Perm
            (defs.map NodeDef.name) := by
          have e1 : (done ++ [d.name]) ++ ((x :: xs).erase d).map NodeDef.name
              = done ++ (d.name :: ((x :: xs).erase d).map NodeDef.name) := by simp
          have p1 : (done ++ (d.name :: ((x :: xs).erase d).map NodeDef.name)).Perm
              (done ++ (x :: xs).map NodeDef.name) :=
            List.Perm.append_left done hpermrem.symm
          rw [e1]
          exact p1.trans hperm
        have hlen' : ((x :: xs).erase d).length ≤ fuel := by
          rw [List.length_erase_of_mem hdmem]
          simpa using Nat.le_of_succ_le_succ hlen
        exact ih ((x :: xs).erase d) (done ++ [d.name]) hlen'
          (fun e he => hsub (List.erase_subset _ _ he)) hperm'
      | none =>
        exfalso
        apply hacyc
        apply cycle_of_all_have_pred defs ((x :: xs).map NodeDef.name) (by simp)
        intro b hb
        obtain ⟨d, hd, rfl⟩ := List.mem_map.mp hb
        have hnotready : ¬ topoReady done d = true := List.find?_eq_none.mp hfind d hd
        have hex : ∃ i ∈ d.inputs, i ∉ done := by
          by_contra hc
          push_neg at hc
          apply hnotready
          apply List.all_eq_true.mpr
          intro i hi
          simpa [List.elem_iff] using hc i hi
        obtain ⟨i, hi, hnotdone⟩ := hex
        refine ⟨i, ?_, ⟨d, hsub hd, rfl, hi⟩⟩
        have hin : i ∈ defs.map NodeDef.name := hinputs d (hsub hd) i hi
        have hin' : i ∈ done ++ (x :: xs).map NodeDef.name := hperm.mem_iff.mpr hin
        rcases List.mem_append.mp hin' with hmem | hmem
        · exact absurd hmem hnotdone
        · exact hmem

theorem indexOf_append_cons {α : Type} [DecidableEq α] (l₁ l₂ : List α) (a : α)
    (h : a ∉ l₁) : (l₁ ++ a :: l₂).indexOf a = l₁.length := by
  induction l₁ with
  | nil => simp
  | cons x t ih =>
    have hxa : x ≠ a := fun he => h (he ▸ List.mem_cons_self x t)
    simp only [List.cons_append, List.indexOf_cons_ne _ hxa, List.length_cons]
    rw [ih (fun hc => h (List.mem_cons_of_mem x hc))]

theorem toposort_topological (defs : List NodeDef)
    (hnodup : (defs.map NodeDef.name).Nodup) (order : List String)
    (h : toposort defs.length defs [] = some order) :
    order.Perm (defs.map NodeDef.name) ∧
    (∀ d ∈ defs, d.name ∈ order ∧ ∀ i ∈ d.inputs, i ∈ order) ∧
    (∀ d ∈ defs, ∀ i ∈ d.inputs, order.indexOf i < order.indexOf d.name) := by
  obtain ⟨hperm, hinv2, hpw⟩ := toposort_sound defs hnodup defs.length defs [] order h
    (List.Subset.refl defs) (by simp) (by simp) (by simp)
  have hmem : ∀ d ∈ defs, d.name ∈ order :=
    fun d hd => hperm.mem_iff.mpr (List.mem_map_of_mem NodeDef.name hd)
  have hnd : order.Nodup := (hperm.nodup_iff).mpr hnodup
  refine ⟨hperm, fun d hd => ⟨hmem d hd, (hinv2 d hd (hmem d hd)).1⟩, ?_⟩
  intro d hd i hi
  have hdo : d.name ∈ order := hmem d hd
  have hio : i ∈ order := (hinv2 d hd hdo).1 i hi
  have hself : d.name ∉ d.inputs := (hinv2 d hd hdo).2
  have hplt : order.indexOf d.name < order.length := List.indexOf_lt_length.mpr hdo
  have hqlt : order.indexOf i < order.length := List.indexOf_lt_length.mpr hio
  rcases Nat.lt_trichotomy (order.indexOf i) (order.indexOf d.name) with hlt | heq | hgt
  · exact hlt
  · exfalso
    have : i = d.name := (List.indexOf_inj hio hdo).mp heq
    exact hself (this ▸ hi)
  · exfalso
    have hR := List.pairwise_iff_getElem.mp hpw
      (order.indexOf d.name) (order.indexOf i) hplt hqlt hgt
    rw [List.getElem_indexOf hplt, List.getElem_indexOf hqlt] at hR
    exact hR d hd rfl hi

theorem indexOf_append_ge {α : Type} [DecidableEq α] (l₁ l₂ : List α) (a : α)
    (h : a ∉ l₁) : l₁.length ≤ (l₁ ++ l₂).indexOf a := by
  induction l₁ with
  | nil => simp
  | cons x t ih =>
    have hxa : x ≠ a := fun he => h (he ▸ List.mem_cons_self x t)
    simp only [List.cons_append, List.indexOf_cons_ne _ hxa, List.length_cons]
    exact Nat.succ_le_succ (ih (fun hc => h (List.mem_cons_of_mem x hc)))

theorem registerNodes_aux (defs : List NodeDef)
    (hnodup : (defs.map NodeDef.name).Nodup) (order : List String)
    (hperm : order.Perm (defs.map NodeDef.name))
    (htopo : ∀ d ∈ defs, ∀ i ∈ d.inputs, order.indexOf i < order.indexOf d.name) :
    ∀ (rest pre : List String), pre ++ rest = order →
      registerNodes defs rest pre = .ok order := by
  have hndo : order.Nodup := (hperm.nodup_iff).mpr hnodup
  intro rest
  induction rest with
  | nil =>
    intro pre hpre
    simp only [List.append_nil] at hpre
    subst hpre
    rfl
  | cons n rest' ih =>
    intro pre hpre
    have hno : n ∈ order := by
      rw [← hpre]
      exact List.mem_append_right pre (List.mem_cons_self _ _)
    have hnames : n ∈ defs.map NodeDef.name := hperm.mem_iff.mp hno
    have hfindSome : (findDef defs n).isSome := by
      unfold findDef
      rw [List.find?_isSome]
      obtain ⟨d, hd, hdn⟩ := List.mem_map.mp hnames
      exact ⟨d, hd, by simp [hdn]⟩
    obtain ⟨d₀, hd₀⟩ := Option.isSome_iff_exists.mp hfindSome
    have hd₀defs : d₀ ∈ defs := List.mem_of_find?_eq_some hd₀
    have hd₀n : d₀.name = n := by
      have := List.find?_some hd₀
      simpa using this
    have hnotpre : n ∉ pre := by
      intro hc
      have hndo' := hndo
      rw [← hpre] at hndo'
      rcases List.nodup_append.mp hndo' with ⟨_, _, hdisj⟩
      exact hdisj hc (List.mem_cons_self _ _)
    have hidxn : order.indexOf n = pre.length := by
      rw [← hpre]
      exact indexOf_append_cons pre rest' n hnotpre
    have hinpre : ∀ i ∈ d₀.inputs, i ∈ pre := by
      intro i hi
      have hlt := htopo d₀ hd₀defs i hi
      rw [hd₀n, hidxn] at hlt
      by_contra hc
      have hge : pre.length ≤ (pre ++ n :: rest').indexOf i :=
        indexOf_append_ge pre (n :: rest') i hc
      rw [hpre] at hge
      omega
    have hall : d₀.inputs.all (pre.contains ·) = true := by
      rw [List.all_eq_true]
      intro i hi
      simpa [List.elem_iff] using hinpre i hi
    show registerNodes defs (n :: rest') pre = .ok order
    rw [registerNodes, hd₀]
    dsimp only
    rw [if_pos hall]
    exact ih (pre ++ [n]) (by simpa using hpre)

theorem pipeline_unfold (factory : List (String × Bool)) (defs : List NodeDef)
    (htypes : ∀ d ∈ defs, (factory.lookup d.node_type).isSome)
    (hsink : ∃ d ∈ defs, (factory.lookup d.node_type).getD false = true)
    (hinputs : ∀ d ∈ defs, ∀ i ∈ d.inputs, i ∈ defs.map NodeDef.name) :
    pipeline factory defs
      = match toposort defs.length defs [] with
        | none => .err (.InvalidPipeline .Cycle)
        | some order => registerNodes defs order [] := by
  have h1 : defs.find? (fun d => (factory.lookup d.node_type).isNone) = none := by
    rw [List.find?_eq_none]
    intro d hd
    have := htypes d hd
    cases hl : factory.lookup d.node_type <;> simp_all
  have h2 : ((defs.filter (fun d => (factory.lookup d.node_type).getD false)).map
      (·.name)).isEmpty = false := by
    obtain ⟨d, hd, hs⟩ := hsink
    have hdf : d ∈ defs.filter (fun d => (factory.lookup d.node_type).getD false) :=
      List.mem_filter.mpr ⟨hd, by simp [hs]⟩
    have hmem : d.name ∈ (defs.filter
        (fun d => (factory.lookup d.node_type).getD false)).map (·.name) :=
      List.mem_map_of_mem _ hdf
    cases hl : (defs.filter (fun d => (factory.lookup d.node_type).getD false)).map
        (·.name) with
    | nil => rw [hl] at hmem; cases hmem
    | cons a l => rfl
  have h3 : defs.all (fun d => d.inputs.all ((defs.map (·.name)).contains ·)) = true := by
    rw [List.all_eq_true]
    intro d hd
    rw [List.all_eq_true]
    intro i hi
    simpa [List.elem_iff] using hinputs d hd i hi
  unfold pipeline
  rw [h1]
  dsimp only
  rw [h2, h3]
  simp

/-- Claim C2: for every definition set with distinct names whose node types all
resolve, that has at least one sink, and whose declared inputs are all declared
node names: if the input graph is acyclic the builder succeeds and registers
the nodes in an order containing exactly the declared names in which every
declared input appears strictly before its dependent (so each input handle is
already registered when a node is constructed); if the input edges contain a
cycle the builder returns `InvalidPipeline(Cycle)` before constructing any
node.  The external petgraph `toposort` is modelled by a verified Kahn-style
sort satisfying its documented contract. -/
theorem pipeline_topological (factory : List (String × Bool)) (defs : List NodeDef)
    (hnodup : (defs.map NodeDef.name).Nodup)
    (htypes : ∀ d ∈ defs, (factory.lookup d.node_type).isSome)
    (hsink : ∃ d ∈ defs, (factory.lookup d.node_type).getD false = true)
    (hinputs : ∀ d ∈ defs, ∀ i ∈ d.inputs, i ∈ defs.map NodeDef.name) :
    (¬ HasCycle defs →
      ∃ order, pipeline factory defs = .ok order ∧
        order.Perm (defs.map NodeDef.name) ∧
        ∀ d ∈ defs, ∀ i ∈ d.inputs, order.indexOf i < order.indexOf d.name) ∧
    (HasCycle defs → pipeline factory defs = .err (.InvalidPipeline .Cycle)) := by
  have hunfold := pipeline_unfold factory defs htypes hsink hinputs
  constructor
  · intro hacyc
    have hsome := toposort_complete defs hinputs hacyc defs.length defs []
      (le_refl _) (List.Subset.refl defs) (by simp)
    obtain ⟨order, horder⟩ := Option.isSome_iff_exists.mp hsome
    obtain ⟨hperm, _, htopo⟩ := toposort_topological defs hnodup order horder
    refine ⟨order, ?_, hperm, htopo⟩
    rw [hunfold, horder]
    exact registerNodes_aux defs hnodup order hperm htopo order [] rfl
  · intro hcyc
    rw [hunfold]
    cases horder : toposort defs.length defs [] with
    | none => rfl
    | some order =>
      exfalso
      obtain ⟨_, _, htopo⟩ := toposort_topological defs hnodup order horder
      refine absurd hcyc (rank_acyclic defs (fun s => order.indexOf s) ?_)
      rintro a b ⟨d, hd, rfl, hain⟩
      exact htopo d hd a hain

/-- Witness for `pipeline_topological`: two nodes `a : src` and `b : rtsp`
(sink) with edge a→b; the graph is acyclic (certified by a rank function), so
the builder succeeds with "a" registered before "b". -/
theorem pipeline_topological_witness :
    (([⟨"a", "src", []⟩, ⟨"b", "rtsp", ["a"]⟩] : List NodeDef).map
        NodeDef.name).Nodup ∧
    (∀ d ∈ ([⟨"a", "src", []⟩, ⟨"b", "rtsp", ["a"]⟩] : List NodeDef),
      (([("src", false), ("rtsp", true)] : List (String × Bool)).lookup
        d.node_type).isSome) ∧
    (∃ d ∈ ([⟨"a", "src", []⟩, ⟨"b", "rtsp", ["a"]⟩] : List NodeDef),
      (([("src", false), ("rtsp", true)] : List (String × Bool)).lookup
        d.node_type).getD false = true) ∧
    (∀ d ∈ ([⟨"a", "src", []⟩, ⟨"b", "rtsp", ["a"]⟩] : List NodeDef),
      ∀ i ∈ d.inputs,
        i ∈ ([⟨"a", "src", []⟩, ⟨"b", "rtsp", ["a"]⟩] : List NodeDef).map
          NodeDef.name) ∧
    (¬ HasCycle [⟨"a", "src", []⟩, ⟨"b", "rtsp", ["a"]⟩]) ∧
    ((¬ HasCycle [⟨"a", "src", []⟩, ⟨"b", "rtsp", ["a"]⟩] →
      ∃ order, pipeline [("src", false), ("rtsp", true)]
          [⟨"a", "src", []⟩, ⟨"b", "rtsp", ["a"]⟩] = .ok order ∧
        order.Perm (([⟨"a", "src", []⟩, ⟨"b", "rtsp", ["a"]⟩] : List NodeDef).map
          NodeDef.name) ∧
        ∀ d ∈ ([⟨"a", "src", []⟩, ⟨"b", "rtsp", ["a"]⟩] : List NodeDef),
          ∀ i ∈ d.inputs, order.indexOf i < order.indexOf d.name) ∧
    (HasCycle [⟨"a", "src", []⟩, ⟨"b", "rtsp", ["a"]⟩] →
      pipeline [("src", false), ("rtsp", true)]
        [⟨"a", "src", []⟩, ⟨"b", "rtsp", ["a"]⟩]
        = .err (.InvalidPipeline .Cycle))) := by
  have hacyc : ¬ HasCycle [⟨"a", "src", []⟩, ⟨"b", "rtsp", ["a"]⟩] := by
    apply rank_acyclic _ (fun s => if s = "b" then 1 else 0)
    rintro a b ⟨d, hd, rfl, hain⟩
    simp only [List.mem_cons, List.not_mem_nil, or_false] at hd
    rcases hd with rfl | rfl
    · simp at hain
    · simp only [List.mem_singleton] at hain
      subst hain
      decide
  refine ⟨by decide, by decide, by decide, by decide, hacyc, ?_⟩
  exact pipeline_topological [("src", false), ("rtsp", true)]
    [⟨"a", "src", []⟩, ⟨"b", "rtsp", ["a"]⟩]
    (by decide) (by decide) (by decide) (by decide)

end Picasound
